import Mathlib

/-!
Shallow embedding of the qrare chunking / reassembly protocol.

Sources embedded here (paths relative to the repository root):
* `src/qrare/core/encoder.py` — `QREncoder._calculate_chunk_info`,
  `QREncoder._extract_chunk`, `QREncoder._generate_qr_codes`, `QREncoder.encode_file`.
* `src/qrare/core/decoder.py` — `QRDecoder._validate_and_organize_chunks`,
  `QRDecoder._reconstruct_file_data`, `QRDecoder._save_reconstructed_file`,
  `QRDecoder._verify_file_integrity`, `QRDecoder.decode_qr_images`,
  `QRDecoder.analyze_qr_images`.
* `src/qrare/core/config.py` — `QRConfig._validate_chunk_size`.
* `src/qrare/utils/path_utils.py` — `get_safe_output_path`.
* `src/qrare/utils/file_ops.py` — `FileManager.compress_data` / `decompress_data`
  (zlib, an external library the spec treats as a pluggable byte transform; the
  embedding takes the transform pair as a parameter).

Bytes are modelled as `List Nat`.  The carrier layer (QR rendering/scanning,
base64 text encoding and JSON framing of a chunk record) is external to the
protocol; chunk records are modelled post-parse, carrying their raw payload
bytes, exactly the dictionaries that `_validate_and_organize_chunks` receives.
The filesystem is modelled as an association list from path strings to byte
contents, with `open(path, 'wb')` prepending (hence shadowing) an entry.
-/

namespace QRare

/-- One parsed chunk record, as produced by `_decode_single_qr_image`
(`decoder.py`): the base64-decoded payload plus the metadata fields
`chunk_index`, `total_chunks`, `filename`, `file_hash` of the JSON record
built by `QREncoder._create_chunk_metadata`.  Indices are naturals because
`_validate_chunk_metadata` rejects any record with
`chunk_index < 0` before the record reaches the assembly code. -/
structure ChunkData where
  data : List Nat
  chunk_index : Nat
  total_chunks : Nat
  filename : String
  file_hash : String
deriving DecidableEq, Repr

/-- The metadata triple every chunk of one logical file must agree on. -/
def ChunkData.triple (c : ChunkData) : Nat × String × String :=
  (c.total_chunks, c.filename, c.file_hash)

/-! ## Encoder (`encoder.py`) -/

/-- `total_chunks = (data_size + self.config.chunk_size - 1) // self.config.chunk_size`
from `QREncoder._calculate_chunk_info` (also `converter.py` line 186). -/
def totalChunksOf (dataSize chunkSize : Nat) : Nat :=
  (dataSize + chunkSize - 1) / chunkSize

/-- `QREncoder._extract_chunk`: `compressed_data[start_pos:end_pos]` with
`start_pos = chunk_index * chunk_size` and
`end_pos = min(start_pos + chunk_size, len(compressed_data))`; a Python slice
of that shape is drop-then-take (`take` clips at the end of the list). -/
def extract_chunk (compressedData : List Nat) (chunkIndex chunkSize : Nat) : List Nat :=
  (compressedData.drop (chunkIndex * chunkSize)).take chunkSize

/-- The chunk records produced by `QREncoder._generate_qr_codes`: one record
per `chunk_index in range(total_chunks)`, with payload `_extract_chunk(...)`
and the metadata fields set by `_create_chunk_metadata`. -/
def generate_chunks (compressedData : List Nat) (chunkSize : Nat)
    (filename fileHash : String) : List ChunkData :=
  (List.range (totalChunksOf compressedData.length chunkSize)).map fun i =>
    { data := extract_chunk compressedData i chunkSize
      chunk_index := i
      total_chunks := totalChunksOf compressedData.length chunkSize
      filename := filename
      file_hash := fileHash }

/-- `QREncoder.encode_file`, at the byte level: hash the original bytes,
compress them, and chunk the compressed payload.  `compress` stands for
`FileManager.compress_data` (zlib, external) and `hashFn` for
`calculate_file_hash` (sha256, external). -/
def encode_file (compress : List Nat → List Nat) (hashFn : List Nat → String)
    (fileData : List Nat) (filename : String) (chunkSize : Nat) : List ChunkData :=
  generate_chunks (compress fileData) chunkSize filename (hashFn fileData)

/-! ## Decoder: chunk validation (`decoder.py`, `_validate_and_organize_chunks`) -/

/-- The `ChunkError` conditions raised by `_validate_and_organize_chunks`,
carrying the same context values the Python error messages carry. -/
inductive ChunkErr where
  | noChunks
  | countMismatch (received expected : Nat)
  | duplicateIndex (idx : Nat)
  | missingIndex (expectedIdx foundIdx : Nat)
  | inconsistentTotal (pos chunkTotal expectedTotal : Nat)
  | inconsistentFilename (pos : Nat) (chunkName expectedName : String)
  | inconsistentHash (pos : Nat) (chunkHash expectedHash : String)
deriving DecidableEq, Repr

/-- The `metadata` dictionary returned by `_validate_and_organize_chunks`. -/
structure FileMetadata where
  filename : String
  file_hash : String
  total_chunks : Nat
deriving DecidableEq, Repr

/-- The dictionary returned by `_validate_and_organize_chunks`:
the validated chunks in sorted order plus the expected metadata. -/
structure OrganizedChunks where
  chunks : List ChunkData
  metadata : FileMetadata
deriving DecidableEq, Repr

/-- The sort key of `sorted(chunk_data_list, key=lambda x: x['chunk_index'])`. -/
def chunkLe (a b : ChunkData) : Bool :=
  decide (a.chunk_index ≤ b.chunk_index)

/-- The `for i, chunk in enumerate(sorted_chunks)` loop body of
`_validate_and_organize_chunks`: duplicate check against `seen_indices`,
then `chunk_index == i`, then the three metadata-consistency checks,
in exactly the order the Python code performs them. -/
def organizeLoop (expectedTotal : Nat) (expectedFilename expectedHash : String) :
    List ChunkData → Nat → List Nat → Except ChunkErr Unit
  | [], _, _ => .ok ()
  | c :: rest, i, seen =>
    if c.chunk_index ∈ seen then
      .error (.duplicateIndex c.chunk_index)
    else if c.chunk_index ≠ i then
      .error (.missingIndex i c.chunk_index)
    else if c.total_chunks ≠ expectedTotal then
      .error (.inconsistentTotal i c.total_chunks expectedTotal)
    else if c.filename ≠ expectedFilename then
      .error (.inconsistentFilename i c.filename expectedFilename)
    else if c.file_hash ≠ expectedHash then
      .error (.inconsistentHash i c.file_hash expectedHash)
    else
      organizeLoop expectedTotal expectedFilename expectedHash rest (i + 1)
        (c.chunk_index :: seen)

/-- `QRDecoder._validate_and_organize_chunks`: empty check, expected triple
from the first chunk, count check, stable sort by `chunk_index`, then the
per-chunk loop.  On success the Python code returns the sorted chunk list
(`validated_chunks` accumulates the chunks in loop order) and the metadata. -/
def validate_and_organize_chunks (cs : List ChunkData) : Except ChunkErr OrganizedChunks :=
  match cs with
  | [] => .error .noChunks
  | first :: _ =>
    if cs.length ≠ first.total_chunks then
      .error (.countMismatch cs.length first.total_chunks)
    else
      let sortedChunks := cs.mergeSort chunkLe
      match organizeLoop first.total_chunks first.filename first.file_hash
          sortedChunks 0 [] with
      | .error e => .error e
      | .ok _ =>
        .ok { chunks := sortedChunks
              metadata := { filename := first.filename
                            file_hash := first.file_hash
                            total_chunks := first.total_chunks } }

/-- Error kinds of the full decode pipeline (`decoder.py`): a `ChunkError`,
a decompression failure (`CompressionError` wrapped in `DecodingError`),
an `IntegrityError` carrying expected and actual hash, or a file operation
failure. -/
inductive DecodeErr where
  | chunk (e : ChunkErr)
  | transform
  | integrity (expectedHash actualHash : String)
  | fileOp
deriving DecidableEq, Repr

/-- `QRDecoder._reconstruct_file_data`: concatenate the validated chunks'
payloads (`compressed_data += chunk_bytes` over the sorted list) and
decompress.  `decompress` stands for `FileManager.decompress_data`
(zlib, external); `none` models the `zlib.error` path. -/
def reconstruct_file_data (decompress : List Nat → Option (List Nat))
    (org : OrganizedChunks) : Except DecodeErr (List Nat) :=
  let compressedData := (org.chunks.map ChunkData.data).flatten
  match decompress compressedData with
  | some originalData => .ok originalData
  | none => .error .transform

/-- The chunk-set to bytes part of strict decode: validate, order and
concatenate, then decompress — `reconstruct(chunk set)` in the spec. -/
def decodeChunkSet (decompress : List Nat → Option (List Nat))
    (cs : List ChunkData) : Except DecodeErr (List Nat) :=
  match validate_and_organize_chunks cs with
  | .error e => .error (.chunk e)
  | .ok org => reconstruct_file_data decompress org

end QRare

namespace QRare

/-! ## Characterization of the validation loop -/

/-- The enumerate loop of `_validate_and_organize_chunks` accepts a list
exactly when its indices are `i, i+1, ...` in order and every chunk carries
the expected metadata triple, provided every index in `seen` is below `i`
(true initially, `seen = []`, and preserved by the loop). -/
theorem organizeLoop_ok_iff (eT : Nat) (eF eH : String) :
    ∀ (l : List ChunkData) (i : Nat) (seen : List Nat),
      (∀ x ∈ seen, x < i) →
      (organizeLoop eT eF eH l i seen = .ok () ↔
        (l.map ChunkData.chunk_index = List.range' i l.length ∧
         ∀ c ∈ l, c.total_chunks = eT ∧ c.filename = eF ∧ c.file_hash = eH))
  | [], i, seen, _ => by simp [organizeLoop]
  | c :: l, i, seen, hseen => by
    by_cases h2 : c.chunk_index = i
    · subst h2
      have h1 : c.chunk_index ∉ seen := fun hmem => by
        have := hseen _ hmem; omega
      have hrec := organizeLoop_ok_iff eT eF eH l (c.chunk_index + 1)
        (c.chunk_index :: seen)
        (by
          intro x hx
          rcases List.mem_cons.mp hx with hx | hx
          · omega
          · have := hseen _ hx; omega)
      by_cases h3 : c.total_chunks = eT
      · by_cases h4 : c.filename = eF
        · by_cases h5 : c.file_hash = eH
          · simp only [organizeLoop]
            rw [if_neg h1,
              if_neg (show ¬c.chunk_index ≠ c.chunk_index by simp),
              if_neg (show ¬c.total_chunks ≠ eT by simpa using h3),
              if_neg (show ¬c.filename ≠ eF by simpa using h4),
              if_neg (show ¬c.file_hash ≠ eH by simpa using h5), hrec,
              List.length_cons, List.range'_succ, List.map_cons]
            constructor
            · rintro ⟨hmap, hall⟩
              refine ⟨by rw [hmap], ?_⟩
              intro x hx
              rcases List.mem_cons.mp hx with rfl | hx
              · exact ⟨h3, h4, h5⟩
              · exact hall x hx
            · rintro ⟨hmap, hall⟩
              exact ⟨(List.cons_eq_cons.mp hmap).2, fun x hx =>
                hall x (List.mem_cons_of_mem _ hx)⟩
          · refine iff_of_false ?_ ?_
            · simp only [organizeLoop]
              rw [if_neg h1,
                if_neg (show ¬c.chunk_index ≠ c.chunk_index by simp),
                if_neg (show ¬c.total_chunks ≠ eT by simpa using h3),
                if_neg (show ¬c.filename ≠ eF by simpa using h4),
                if_pos (show c.file_hash ≠ eH from h5)]
              simp
            · rintro ⟨-, hall⟩
              exact h5 (hall c (List.mem_cons_self c l)).2.2
        · refine iff_of_false ?_ ?_
          · simp only [organizeLoop]
            rw [if_neg h1,
              if_neg (show ¬c.chunk_index ≠ c.chunk_index by simp),
              if_neg (show ¬c.total_chunks ≠ eT by simpa using h3),
              if_pos (show c.filename ≠ eF from h4)]
            simp
          · rintro ⟨-, hall⟩
            exact h4 (hall c (List.mem_cons_self c l)).2.1
      · refine iff_of_false ?_ ?_
        · simp only [organizeLoop]
          rw [if_neg h1,
            if_neg (show ¬c.chunk_index ≠ c.chunk_index by simp),
            if_pos (show c.total_chunks ≠ eT from h3)]
          simp
        · rintro ⟨-, hall⟩
          exact h3 (hall c (List.mem_cons_self c l)).1
    · refine iff_of_false ?_ ?_
      · simp only [organizeLoop]
        by_cases h1 : c.chunk_index ∈ seen
        · rw [if_pos h1]; simp
        · rw [if_neg h1, if_pos (show c.chunk_index ≠ i from h2)]; simp
      · rintro ⟨hmap, -⟩
        rw [List.length_cons, List.range'_succ, List.map_cons] at hmap
        exact h2 (List.cons_eq_cons.mp hmap).1

/-- Success criterion of `_validate_and_organize_chunks`: the input is
non-empty, the count matches the first chunk's `total_chunks`, the sorted
indices are exactly `0, ..., n-1`, all chunks carry the first chunk's
metadata triple, and the returned value is the sorted list with that
metadata. -/
theorem validate_ok_iff (cs : List ChunkData) (org : OrganizedChunks) :
    validate_and_organize_chunks cs = .ok org ↔
      ∃ first rest, cs = first :: rest ∧
        cs.length = first.total_chunks ∧
        (cs.mergeSort chunkLe).map ChunkData.chunk_index = List.range cs.length ∧
        (∀ c ∈ cs, c.total_chunks = first.total_chunks ∧
          c.filename = first.filename ∧ c.file_hash = first.file_hash) ∧
        org = { chunks := cs.mergeSort chunkLe
                metadata := { filename := first.filename
                              file_hash := first.file_hash
                              total_chunks := first.total_chunks } } := by
  match cs with
  | [] =>
    refine iff_of_false (by simp [validate_and_organize_chunks]) ?_
    rintro ⟨first, rest, h, -⟩
    exact List.cons_ne_nil first rest h.symm
  | first :: rest =>
    have hloop := organizeLoop_ok_iff first.total_chunks first.filename
      first.file_hash ((first :: rest).mergeSort chunkLe) 0 [] (by simp)
    have hslen : ((first :: rest).mergeSort chunkLe).length =
        (first :: rest).length := List.length_mergeSort _
    have hsmem : ∀ c, c ∈ (first :: rest).mergeSort chunkLe ↔ c ∈ first :: rest :=
      fun c => (List.mergeSort_perm (first :: rest) chunkLe).mem_iff
    by_cases hlen : (first :: rest).length = first.total_chunks
    · cases h : organizeLoop first.total_chunks first.filename first.file_hash
          ((first :: rest).mergeSort chunkLe) 0 [] with
      | error e =>
        refine iff_of_false ?_ ?_
        · simp only [validate_and_organize_chunks]
          rw [if_neg (show ¬(first :: rest).length ≠ first.total_chunks by
            simpa using hlen), h]
          simp
        · rintro ⟨f, r, hcons, hl, hmap, hall, -⟩
          obtain rfl : f = first := ((List.cons_eq_cons.mp hcons).1).symm
          have hok : organizeLoop f.total_chunks f.filename f.file_hash
              ((f :: rest).mergeSort chunkLe) 0 [] = .ok () := by
            rw [hloop]
            refine ⟨?_, fun c hc => hall c ((hsmem c).mp hc)⟩
            rw [hslen, ← List.range_eq_range']
            exact hmap
          rw [h] at hok
          exact Except.noConfusion hok
      | ok u =>
        have hcond := hloop.mp (by rw [h])
        have hval : validate_and_organize_chunks (first :: rest) =
            .ok { chunks := (first :: rest).mergeSort chunkLe
                  metadata := { filename := first.filename
                                file_hash := first.file_hash
                                total_chunks := first.total_chunks } } := by
          simp only [validate_and_organize_chunks]
          rw [if_neg (show ¬(first :: rest).length ≠ first.total_chunks by
            simpa using hlen), h]
        rw [hval]
        constructor
        · intro hok
          have horg := (Except.ok.inj hok).symm
          refine ⟨first, rest, rfl, hlen, ?_, ?_, horg⟩
          · rw [← hslen, List.range_eq_range']
            exact hcond.1
          · exact fun c hc => hcond.2 c ((hsmem c).mpr hc)
        · rintro ⟨f, r, hcons, hl, hmap, hall, horg⟩
          obtain rfl : f = first := ((List.cons_eq_cons.mp hcons).1).symm
          rw [horg]
    · refine iff_of_false ?_ ?_
      · simp only [validate_and_organize_chunks]
        rw [if_pos (show (first :: rest).length ≠ first.total_chunks from hlen)]
        simp
      · rintro ⟨f, r, hcons, hl, -⟩
        obtain rfl : f = first := ((List.cons_eq_cons.mp hcons).1).symm
        exact hlen hl

end QRare

namespace QRare

/-! ## Arithmetic of the chunk count and the slicing -/

/-- `(n + s - 1) / s` is the ceiling of `n / s`: the unique `L` with
`n ≤ L * s < n + s` (for positive `s`). -/
theorem totalChunksOf_bounds (n s : Nat) (hs : 0 < s) :
    n ≤ totalChunksOf n s * s ∧ totalChunksOf n s * s < n + s := by
  unfold totalChunksOf
  have hdm := Nat.div_add_mod (n + s - 1) s
  have hm : (n + s - 1) % s < s := Nat.mod_lt _ hs
  rw [Nat.mul_comm ((n + s - 1) / s) s]
  generalize hq : s * ((n + s - 1) / s) = m at hdm
  generalize hr : (n + s - 1) % s = r at hdm hm
  omega

/-- Slicing `p` into `L` ranges of width `s` and concatenating them gives
back `p`, as soon as `L * s` covers the whole list. -/
theorem flatten_extract_chunks (s : Nat) :
    ∀ (L : Nat) (p : List Nat), p.length ≤ L * s →
      ((List.range L).map fun i => extract_chunk p i s).flatten = p
  | 0, p, h => by
    have hp : p = [] := List.eq_nil_of_length_eq_zero (by omega)
    simp [hp]
  | L + 1, p, h => by
    rw [List.range_succ_eq_map, List.map_cons, List.map_map, List.flatten_cons]
    have h0 : extract_chunk p 0 s = p.take s := by
      simp [extract_chunk]
    have hcomp : ((fun i => extract_chunk p i s) ∘ Nat.succ) =
        fun i => extract_chunk (p.drop s) i s := by
      funext i
      show extract_chunk p (i + 1) s = extract_chunk (p.drop s) i s
      simp only [extract_chunk, List.drop_drop]
      rw [show s + i * s = (i + 1) * s by ring]
    rw [Nat.succ_mul] at h
    rw [h0, hcomp, flatten_extract_chunks s L (p.drop s) (by
      rw [List.length_drop]
      generalize L * s = m at h ⊢
      omega)]
    exact List.take_append_drop s p

/-- Length of the slice `_extract_chunk` produces. -/
theorem extract_chunk_length (p : List Nat) (i s : Nat) :
    (extract_chunk p i s).length = min s (p.length - i * s) := by
  simp [extract_chunk]

/-- The encoder emits exactly `total_chunks` chunk records. -/
theorem generate_chunks_length (p : List Nat) (s : Nat) (fn fh : String) :
    (generate_chunks p s fn fh).length = totalChunksOf p.length s := by
  simp [generate_chunks]

/-- The encoder's chunk indices are `0, ..., total-1` in order. -/
theorem generate_chunks_map_index (p : List Nat) (s : Nat) (fn fh : String) :
    (generate_chunks p s fn fh).map ChunkData.chunk_index =
      List.range (totalChunksOf p.length s) := by
  simp only [generate_chunks, List.map_map]
  have hfun : (ChunkData.chunk_index ∘ fun i =>
      ({ data := extract_chunk p i s, chunk_index := i
         total_chunks := totalChunksOf p.length s, filename := fn
         file_hash := fh } : ChunkData)) = fun i => i := rfl
  rw [hfun]
  exact List.map_id' _

/-- The encoder's chunk payloads concatenate back to the whole payload. -/
theorem generate_chunks_flatten (p : List Nat) (s : Nat) (fn fh : String)
    (hs : 0 < s) :
    ((generate_chunks p s fn fh).map ChunkData.data).flatten = p := by
  have hb := (totalChunksOf_bounds p.length s hs).1
  have hx := flatten_extract_chunks s (totalChunksOf p.length s) p hb
  simp only [generate_chunks, List.map_map]
  have hfun : (ChunkData.data ∘ fun i =>
      ({ data := extract_chunk p i s, chunk_index := i
         total_chunks := totalChunksOf p.length s, filename := fn
         file_hash := fh } : ChunkData)) = fun i => extract_chunk p i s := rfl
  rw [hfun]
  exact hx

/-- A chunk list whose indices read `0, ..., n-1` is pairwise strictly
increasing on indices. -/
theorem pairwise_lt_of_map_range (l : List ChunkData) (n : Nat)
    (h : l.map ChunkData.chunk_index = List.range n) :
    l.Pairwise fun a b => a.chunk_index < b.chunk_index := by
  have hp : (l.map ChunkData.chunk_index).Pairwise (· < ·) := by
    rw [h]
    exact List.sorted_lt_range n
  rwa [List.pairwise_map] at hp

/-- A chunk list whose indices read `0, ..., n-1` is sorted for the
`chunk_index` sort key, so Python's stable sort leaves it unchanged. -/
theorem pairwise_chunkLe_of_map_range (l : List ChunkData) (n : Nat)
    (h : l.map ChunkData.chunk_index = List.range n) :
    l.Pairwise fun a b => chunkLe a b = true := by
  refine (pairwise_lt_of_map_range l n h).imp ?_
  intro a b hab
  simp only [chunkLe, decide_eq_true_eq]
  omega

/-- Sorting the encoder's output is a no-op. -/
theorem mergeSort_generate_chunks (p : List Nat) (s : Nat) (fn fh : String) :
    (generate_chunks p s fn fh).mergeSort chunkLe = generate_chunks p s fn fh :=
  List.mergeSort_of_sorted
    (pairwise_chunkLe_of_map_range _ _ (generate_chunks_map_index p s fn fh))

/-- Every chunk the encoder emits carries the constant metadata of its file. -/
theorem generate_chunks_mem_fields (p : List Nat) (s : Nat) (fn fh : String) :
    ∀ c ∈ generate_chunks p s fn fh,
      c.total_chunks = totalChunksOf p.length s ∧ c.filename = fn ∧
      c.file_hash = fh := by
  intro c hc
  simp only [generate_chunks, List.mem_map, List.mem_range] at hc
  obtain ⟨i, -, rfl⟩ := hc
  exact ⟨rfl, rfl, rfl⟩

/-- A non-empty payload yields at least one chunk. -/
theorem totalChunksOf_pos (n s : Nat) (hs : 0 < s) (hn : 0 < n) :
    0 < totalChunksOf n s := by
  have hb := (totalChunksOf_bounds n s hs).1
  by_contra h0
  have : totalChunksOf n s = 0 := by omega
  rw [this] at hb
  simp at hb
  omega

/-- The assembly validator accepts the encoder's output of any non-empty
payload unchanged. -/
theorem validate_generate_chunks (p : List Nat) (s : Nat) (fn fh : String)
    (hs : 0 < s) (hp : p ≠ []) :
    validate_and_organize_chunks (generate_chunks p s fn fh) =
      .ok { chunks := generate_chunks p s fn fh
            metadata := { filename := fn, file_hash := fh
                          total_chunks := totalChunksOf p.length s } } := by
  have htot : 0 < totalChunksOf p.length s :=
    totalChunksOf_pos p.length s hs (by
      cases p with
      | nil => exact absurd rfl hp
      | cons a l => simp)
  have hne : generate_chunks p s fn fh ≠ [] := by
    intro h0
    have := generate_chunks_length p s fn fh
    rw [h0] at this
    simp at this
    omega
  obtain ⟨first, rest, hcons⟩ := List.exists_cons_of_ne_nil hne
  have hfirst : first ∈ generate_chunks p s fn fh := by
    rw [hcons]; exact List.mem_cons_self first rest
  obtain ⟨hft, hfn, hfh⟩ := generate_chunks_mem_fields p s fn fh first hfirst
  rw [validate_ok_iff]
  refine ⟨first, rest, hcons, ?_, ?_, ?_, ?_⟩
  · rw [hft, generate_chunks_length]
  · rw [mergeSort_generate_chunks, generate_chunks_map_index,
      generate_chunks_length]
  · intro c hc
    obtain ⟨h1, h2, h3⟩ := generate_chunks_mem_fields p s fn fh c hc
    exact ⟨h1.trans hft.symm, h2.trans hfn.symm, h3.trans hfh.symm⟩
  · rw [mergeSort_generate_chunks, hfn, hfh, hft]

end QRare

namespace QRare

/-- Claim C1, counterexample: for the empty transformed payload the encoder
produces zero chunks and `total_chunks = 0`, not one chunk with `total = 1`
as the claim states. -/
theorem claim_C1_counterexample :
    generate_chunks [] 1000 "f" "h" = [] ∧ totalChunksOf 0 1000 = 0 := by
  constructor <;> rfl

/-- Claim C1 (amended): for every transformed payload and positive
chunk_size, the encoder produces `(len + chunk_size - 1) / chunk_size`
chunks — the ceiling of `len / chunk_size`, witnessed by the two bounds —
and for an empty payload it produces zero chunks (`total = 0`),
not one. -/
theorem claim_C1 (p : List Nat) (s : Nat) (fn fh : String) (hs : 0 < s) :
    (generate_chunks p s fn fh).length = totalChunksOf p.length s ∧
    p.length ≤ totalChunksOf p.length s * s ∧
    totalChunksOf p.length s * s < p.length + s ∧
    (p = [] → generate_chunks p s fn fh = []) := by
  refine ⟨generate_chunks_length p s fn fh, (totalChunksOf_bounds _ _ hs).1,
    (totalChunksOf_bounds _ _ hs).2, ?_⟩
  rintro rfl
  have h0 : totalChunksOf 0 s = 0 := by
    unfold totalChunksOf
    exact Nat.div_eq_of_lt (by omega)
  simp [generate_chunks, h0]

/-- Witness for `claim_C1` at payload `[1, 2, 3]` and chunk size 2. -/
theorem claim_C1_witness :
    (generate_chunks [1, 2, 3] 2 "f" "h").length = totalChunksOf 3 2 ∧
    3 ≤ totalChunksOf 3 2 * 2 ∧ totalChunksOf 3 2 * 2 < 3 + 2 ∧
    ([1, 2, 3] = ([] : List Nat) → generate_chunks [1, 2, 3] 2 "f" "h" = []) :=
  claim_C1 [1, 2, 3] 2 "f" "h" (by decide)

/-- Claim C2: compress, chunk, then strict-decode the complete chunk set:
the original bytes come back.  The byte transform is the spec's pluggable
contract (`inverse (transform x) = x`); the hypothesis `transform b ≠ []`
holds for the zlib transform the code uses, whose output always contains
at least a 2-byte header and a 4-byte checksum. -/
theorem claim_C2 (compress : List Nat → List Nat)
    (decompress : List Nat → Option (List Nat)) (hashFn : List Nat → String)
    (b : List Nat) (fn : String) (s : Nat) (hs : 0 < s)
    (hinv : ∀ x, decompress (compress x) = some x)
    (hne : compress b ≠ []) :
    decodeChunkSet decompress (encode_file compress hashFn b fn s) = .ok b := by
  unfold encode_file decodeChunkSet
  rw [validate_generate_chunks (compress b) s fn (hashFn b) hs hne]
  show reconstruct_file_data decompress _ = .ok b
  unfold reconstruct_file_data
  simp only
  rw [generate_chunks_flatten (compress b) s fn (hashFn b) hs, hinv b]

/-- A concrete invertible byte transform standing in for zlib in witnesses:
prepend the zlib header byte `0x78`. -/
def wCompress (x : List Nat) : List Nat := 120 :: x

/-- Inverse of `wCompress`; any stream not starting with the header byte is
rejected, modelling `zlib.error`. -/
def wDecompress : List Nat → Option (List Nat)
  | 120 :: r => some r
  | _ => none

/-- A concrete stand-in digest for witnesses. -/
def wHash (l : List Nat) : String := toString l.length

/-- Witness for `claim_C2`: bytes `[7, 8, 9]`, chunk size 2. -/
theorem claim_C2_witness :
    decodeChunkSet wDecompress (encode_file wCompress wHash [7, 8, 9] "f" 2) =
      .ok [7, 8, 9] :=
  claim_C2 wCompress wDecompress wHash [7, 8, 9] "f" 2 (by decide)
    (fun x => rfl) (by decide)

/-- Claim C8: the encoder slices the payload into contiguous ranges —
concatenating the chunks in index order reproduces the payload; every chunk
except the final one has exactly `chunk_size` bytes; the final chunk of a
non-empty payload has between 1 and `chunk_size` bytes.  Concretely, a
2500-byte payload with chunk size 1000 yields 3 chunks of lengths
`[1000, 1000, 500]` that concatenate back to the payload. -/
theorem claim_C8 (p : List Nat) (s : Nat) (fn fh : String) (hs : 0 < s) :
    ((generate_chunks p s fn fh).map ChunkData.data).flatten = p ∧
    (∀ i, i + 1 < totalChunksOf p.length s →
      (extract_chunk p i s).length = s) ∧
    (p ≠ [] →
      1 ≤ (extract_chunk p (totalChunksOf p.length s - 1) s).length ∧
      (extract_chunk p (totalChunksOf p.length s - 1) s).length ≤ s) ∧
    totalChunksOf 2500 1000 = 3 ∧
    (generate_chunks (List.replicate 2500 0) 1000 fn fh).map
      (fun c => c.data.length) = [1000, 1000, 500] ∧
    ((generate_chunks (List.replicate 2500 0) 1000 fn fh).map
      ChunkData.data).flatten = List.replicate 2500 0 := by
  have hb := totalChunksOf_bounds p.length s hs
  refine ⟨generate_chunks_flatten p s fn fh hs, ?_, ?_, by decide, ?_, ?_⟩
  · intro i hi
    rw [extract_chunk_length]
    have h1 : i + 1 ≤ totalChunksOf p.length s - 1 := by omega
    have h2 := Nat.mul_le_mul_right s h1
    rw [Nat.succ_mul, Nat.sub_mul, Nat.one_mul] at h2
    generalize hA : i * s = A at h2 ⊢
    generalize hB : totalChunksOf p.length s * s = B at h2 hb
    omega
  · intro hp
    have hlp : 0 < p.length := by
      cases p with
      | nil => exact absurd rfl hp
      | cons a l => simp
    have htot : 0 < totalChunksOf p.length s := totalChunksOf_pos p.length s hs hlp
    rw [extract_chunk_length]
    have h3 : (totalChunksOf p.length s - 1) * s =
        totalChunksOf p.length s * s - s := by
      rw [Nat.sub_mul, Nat.one_mul]
    rw [h3]
    generalize hB : totalChunksOf p.length s * s = B at hb
    have hsB : s ≤ B := by
      have := Nat.le_mul_of_pos_left s htot
      rw [hB] at this
      exact this
    omega
  · simp only [generate_chunks, List.map_map]
    have hfun : ((fun c => c.data.length) ∘ fun i =>
        ({ data := extract_chunk (List.replicate 2500 0) i 1000, chunk_index := i
           total_chunks := totalChunksOf (List.replicate 2500 (0 : Nat)).length 1000
           filename := fn, file_hash := fh } : ChunkData)) =
        fun i => (extract_chunk (List.replicate 2500 0) i 1000).length := rfl
    rw [hfun]
    have h25 : (List.replicate 2500 (0 : Nat)).length = 2500 :=
      List.length_replicate 2500 0
    rw [h25]
    rw [show totalChunksOf 2500 1000 = 3 from by decide]
    rw [show List.range 3 = [0, 1, 2] from by decide]
    simp only [List.map_cons, List.map_nil, extract_chunk_length, h25]
    decide
  · exact generate_chunks_flatten (List.replicate 2500 0) 1000 fn fh (by decide)

/-- Witness for `claim_C8` at payload `[1, 2]` and chunk size 1. -/
theorem claim_C8_witness :
    ((generate_chunks [1, 2] 1 "f" "h").map ChunkData.data).flatten = [1, 2] :=
  (claim_C8 [1, 2] 1 "f" "h" (by decide)).1

end QRare

namespace QRare

/-- Concrete two-chunk logical file used in several concrete instances:
chunk 0 of 2 of file f with hash h. -/
def cA0 : ChunkData :=
  { data := [10, 11], chunk_index := 0, total_chunks := 2
    filename := "f", file_hash := "h" }

/-- Chunk 1 of 2 of the same logical file as `cA0`. -/
def cA1 : ChunkData :=
  { data := [12], chunk_index := 1, total_chunks := 2
    filename := "f", file_hash := "h" }

/-- Chunk 0 of a one-chunk logical file f with hash hA. -/
def cC0 : ChunkData :=
  { data := [1], chunk_index := 0, total_chunks := 1
    filename := "f", file_hash := "hA" }

/-- Chunk 0 of a different one-chunk logical file g with hash hB. -/
def cB0 : ChunkData :=
  { data := [2], chunk_index := 0, total_chunks := 1
    filename := "g", file_hash := "hB" }

end QRare

namespace QRare

/-! ## Sorting machinery for order independence -/

/-- `chunkLe` is transitive. -/
theorem chunkLe_trans : ∀ (a b c : ChunkData),
    chunkLe a b → chunkLe b c → chunkLe a c := by
  intro a b c h1 h2
  simp only [chunkLe, decide_eq_true_eq] at h1 h2 ⊢
  omega

/-- `chunkLe` is total. -/
theorem chunkLe_total : ∀ (a b : ChunkData), chunkLe a b || chunkLe b a := by
  intro a b
  simp only [chunkLe, Bool.or_eq_true, decide_eq_true_eq]
  omega

instance : IsAntisymm ChunkData fun a b => a.chunk_index < b.chunk_index :=
  ⟨fun _ _ h1 h2 => absurd (Nat.lt_trans h1 h2) (Nat.lt_irrefl _)⟩

/-- Two permutations of one collection have the same stable-sorted order,
whenever one of the sorted orders has strictly increasing indices: on a
duplicate-free index set the sorted chunk sequence is unique. -/
theorem mergeSort_eq_of_perm (cs cs2 : List ChunkData) (n : Nat)
    (hperm : cs.Perm cs2)
    (hmap : (cs.mergeSort chunkLe).map ChunkData.chunk_index = List.range n) :
    cs2.mergeSort chunkLe = cs.mergeSort chunkLe := by
  have hp1 : (cs2.mergeSort chunkLe).Perm (cs.mergeSort chunkLe) :=
    ((List.mergeSort_perm cs2 chunkLe).trans hperm.symm).trans
      (List.mergeSort_perm cs chunkLe).symm
  have hpm : ((cs2.mergeSort chunkLe).map ChunkData.chunk_index).Perm
      (List.range n) := by
    rw [← hmap]
    exact hp1.map _
  have hs1 : ((cs2.mergeSort chunkLe).map ChunkData.chunk_index).Pairwise
      (· ≤ ·) := by
    have hpw := List.sorted_mergeSort chunkLe_trans chunkLe_total cs2
    rw [List.pairwise_map]
    exact hpw.imp fun h => by simpa [chunkLe, decide_eq_true_eq] using h
  have hs2 : (List.range n).Pairwise (· ≤ ·) :=
    (List.sorted_lt_range n).imp Nat.le_of_lt
  have hmap2 : (cs2.mergeSort chunkLe).map ChunkData.chunk_index =
      List.range n :=
    List.eq_of_perm_of_sorted hpm hs1 hs2
  exact List.eq_of_perm_of_sorted hp1
    (pairwise_lt_of_map_range _ n hmap2)
    (pairwise_lt_of_map_range _ n hmap)

end QRare

namespace QRare

unseal List.merge List.mergeSort in
/-- Claim C3, counterexample: `[cA0, cA1]` is a complete consistent set of
total 2, but strict validation of the set with chunk 1 removed fails with
the generic count-mismatch error, not an error naming missing index 1. -/
theorem claim_C3_counterexample :
    validate_and_organize_chunks [cA0, cA1] =
      .ok { chunks := [cA0, cA1]
            metadata := { filename := "f", file_hash := "h", total_chunks := 2 } } ∧
    validate_and_organize_chunks [cA0] = .error (.countMismatch 1 2) := by
  constructor <;> rfl

/-- Claim C3 (amended): removing any single chunk from a complete,
consistent chunk set of total at least 2 makes strict validation fail —
but with the chunk-count-mismatch error reporting received and expected
counts (the count check runs before any per-index check), not with an
error identifying the missing index. -/
theorem claim_C3 (cs : List ChunkData) (org : OrganizedChunks) (c : ChunkData)
    (hok : validate_and_organize_chunks cs = .ok org)
    (h2 : 2 ≤ org.metadata.total_chunks) (hc : c ∈ cs) :
    validate_and_organize_chunks (cs.erase c) =
      .error (.countMismatch (cs.length - 1) org.metadata.total_chunks) := by
  obtain ⟨first, rest, hcons, hlen, hmap, hall, horg⟩ :=
    (validate_ok_iff cs org).mp hok
  have htotal : org.metadata.total_chunks = first.total_chunks := by rw [horg]
  have hel : (cs.erase c).length = cs.length - 1 := List.length_erase_of_mem hc
  rw [htotal] at h2 ⊢
  have hne : cs.erase c ≠ [] := by
    intro h0
    rw [h0] at hel
    simp at hel
    omega
  obtain ⟨f2, r2, hcons2⟩ := List.exists_cons_of_ne_nil hne
  have hf2 : f2 ∈ cs :=
    (List.erase_sublist c cs).subset (hcons2 ▸ List.mem_cons_self f2 r2)
  have hft2 : f2.total_chunks = first.total_chunks := (hall f2 hf2).1
  have hlc : (f2 :: r2).length = cs.length - 1 := by
    rw [← hcons2]
    exact hel
  rw [hcons2]
  simp only [validate_and_organize_chunks]
  rw [if_pos (show (f2 :: r2).length ≠ f2.total_chunks by
    rw [hlc, hft2]
    omega)]
  rw [hlc, hft2]

unseal List.merge List.mergeSort in
/-- Witness for `claim_C3`: erasing `cA1` from the complete set
`[cA0, cA1]` yields the count-mismatch failure. -/
theorem claim_C3_witness :
    validate_and_organize_chunks ([cA0, cA1].erase cA1) =
      .error (.countMismatch 1 2) :=
  claim_C3 [cA0, cA1]
    { chunks := [cA0, cA1]
      metadata := { filename := "f", file_hash := "h", total_chunks := 2 } }
    cA1 (by rfl) (by decide) (by decide)

/-- Claim C6, counterexample: mixing the one-chunk files of `cC0` and `cB0`
(different name and hash) fails — but with the count-mismatch error, whose
payload carries only the counts 2 and 1, not an error naming the metadata
mismatch. -/
theorem claim_C6_counterexample :
    cC0.file_hash ≠ cB0.file_hash ∧ cC0.filename ≠ cB0.filename ∧
    validate_and_organize_chunks [cC0, cB0] = .error (.countMismatch 2 1) := by
  refine ⟨by decide, by decide, rfl⟩

/-- Claim C6 (amended): a collection holding two chunks that disagree on
the `(total_chunks, filename, file_hash)` triple always fails strict
validation — no spliced output is ever produced — though the error may be
a count-mismatch or duplicate-index error rather than one naming the
metadata mismatch. -/
theorem claim_C6 (cs : List ChunkData) (c1 c2 : ChunkData)
    (h1 : c1 ∈ cs) (h2 : c2 ∈ cs) (hne : c1.triple ≠ c2.triple) :
    ∃ e, validate_and_organize_chunks cs = .error e := by
  cases hv : validate_and_organize_chunks cs with
  | error e => exact ⟨e, rfl⟩
  | ok org =>
    obtain ⟨first, rest, -, -, -, hall, -⟩ := (validate_ok_iff cs org).mp hv
    obtain ⟨a1, a2, a3⟩ := hall c1 h1
    obtain ⟨b1, b2, b3⟩ := hall c2 h2
    refine absurd ?_ hne
    simp [ChunkData.triple, a1, a2, a3, b1, b2, b3]

/-- Witness for `claim_C6` at the concrete mixed collection `[cC0, cB0]`. -/
theorem claim_C6_witness :
    ∃ e, validate_and_organize_chunks [cC0, cB0] = .error e :=
  claim_C6 [cC0, cB0] cC0 cB0 (by decide) (by decide) (by decide)

/-- Claim C7: the assembly validator is order independent — if strict
validation and reconstruction of a collection yields a byte stream, any
permutation of that collection yields the same byte stream. -/
theorem claim_C7 (decompress : List Nat → Option (List Nat))
    (cs cs2 : List ChunkData) (hperm : cs.Perm cs2) (b : List Nat)
    (hok : decodeChunkSet decompress cs = .ok b) :
    decodeChunkSet decompress cs2 = .ok b := by
  unfold decodeChunkSet at hok ⊢
  cases hv : validate_and_organize_chunks cs with
  | error e =>
    rw [hv] at hok
    simp at hok
  | ok org =>
    rw [hv] at hok
    obtain ⟨first, rest, hcons, hlen, hmap, hall, horg⟩ :=
      (validate_ok_iff cs org).mp hv
    have hlen2 : cs2.length = cs.length := hperm.length_eq.symm
    have hsortEq : cs2.mergeSort chunkLe = cs.mergeSort chunkLe :=
      mergeSort_eq_of_perm cs cs2 cs.length hperm hmap
    have hne2 : cs2 ≠ [] := by
      intro h0
      rw [h0] at hlen2
      rw [hcons] at hlen2
      simp at hlen2
    obtain ⟨f2, r2, hcons2⟩ := List.exists_cons_of_ne_nil hne2
    have hf2 : f2 ∈ cs := hperm.mem_iff.mpr (hcons2 ▸ List.mem_cons_self f2 r2)
    obtain ⟨ht2, hn2, hh2⟩ := hall f2 hf2
    have hv2 : validate_and_organize_chunks cs2 = .ok org := by
      rw [validate_ok_iff]
      refine ⟨f2, r2, hcons2, ?_, ?_, ?_, ?_⟩
      · rw [hlen2, ht2]
        exact hlen
      · rw [hsortEq, hlen2]
        exact hmap
      · intro c hc
        obtain ⟨a1, a2, a3⟩ := hall c (hperm.mem_iff.mpr hc)
        exact ⟨a1.trans ht2.symm, a2.trans hn2.symm, a3.trans hh2.symm⟩
      · rw [horg, hsortEq, hn2, hh2, ht2]
    rw [hv2]
    exact hok

unseal List.merge List.mergeSort in
/-- Witness for `claim_C7`: swapping the two chunks of the `cA0`/`cA1`
file leaves the reconstructed bytes unchanged. -/
theorem claim_C7_witness :
    decodeChunkSet some [cA0, cA1] = .ok [10, 11, 12] ∧
    decodeChunkSet some [cA1, cA0] = .ok [10, 11, 12] :=
  ⟨by rfl,
    claim_C7 some [cA0, cA1] [cA1, cA0] (List.Perm.swap cA1 cA0 [])
      [10, 11, 12] (by rfl)⟩

end QRare

namespace QRare

/-! ## Configuration validation (`config.py`) -/

/-- The `ValueError` conditions of `QRConfig._validate_chunk_size`. -/
inductive ConfigErr where
  | nonPositive (value : Int)
  | tooLarge (value : Int)
deriving DecidableEq, Repr

/-- `QRConfig._validate_chunk_size` over integer inputs (the
`isinstance(self.chunk_size, int)` guard is the typing of the argument):
reject non-positive values, then values above `10 * 1024 * 1024`. -/
def validate_chunk_size (chunkSize : Int) : Except ConfigErr Unit :=
  if chunkSize ≤ 0 then .error (.nonPositive chunkSize)
  else if chunkSize > 10 * 1024 * 1024 then .error (.tooLarge chunkSize)
  else .ok ()

/-- Claim C9: `QRConfig` construction accepts an integer chunk size exactly
when `1 ≤ chunk_size ≤ 10485760` (10 MB); anything larger is rejected with
a validation error before any encoding work. -/
theorem claim_C9 (n : Int) :
    validate_chunk_size n = .ok () ↔ 1 ≤ n ∧ n ≤ 10485760 := by
  unfold validate_chunk_size
  split_ifs with h1 h2
  · exact iff_of_false (by simp) (by omega)
  · exact iff_of_false (by simp) (by omega)
  · exact iff_of_true rfl (by omega)

/-- Witness for `claim_C9` at the default chunk size 1024. -/
theorem claim_C9_witness :
    validate_chunk_size 1024 = .ok () ∧ validate_chunk_size 10485761 ≠ .ok () :=
  ⟨(claim_C9 1024).mpr (by decide),
    fun h => by
      have := (claim_C9 10485761).mp h
      omega⟩

end QRare

namespace QRare

/-! ## Output paths and the filesystem (`path_utils.py`, `file_ops.py`) -/

/-- The `FileOperationError` of `get_safe_output_path`. -/
inductive FileOpErr where
  | tooManyConflicts
deriving DecidableEq, Repr

/-- `output_dir / name` on string paths. -/
def joinPath (dir name : String) : String := dir ++ "/" ++ name

/-- The numbered variant `stem_counter + suffix` tried by the conflict
loop. -/
def suffixedName (stem : String) (counter : Nat) (sfx : String) : String :=
  stem ++ "_" ++ toString counter ++ sfx

/-- The `while True` loop of `get_safe_output_path`: build
`stem_counter + suffix`, return it when no file exists there, otherwise
increment the counter and raise `FileOperationError` once it passes 10000.
The Python loop terminates by that check; here it is made structural with
a fuel argument that never runs out when the loop enters at counter 1 with
fuel 10000. -/
def safeLoop (ex : String → Bool) (dir stem sfx : String) :
    Nat → Nat → Except FileOpErr String
  | _, 0 => .error .tooManyConflicts
  | counter, fuel + 1 =>
    let newPath := joinPath dir (suffixedName stem counter sfx)
    if ex newPath = false then .ok newPath
    else if counter + 1 > 10000 then .error .tooManyConflicts
    else safeLoop ex dir stem sfx (counter + 1) fuel

/-- `get_safe_output_path(output_dir, filename)`, with the
`Path.stem` / `Path.suffix` decomposition of `filename` passed in (pathlib
is external): return `output_dir / filename` when nothing exists there,
otherwise the first free numbered variant.  `ex` is `Path.exists` on the
current filesystem. -/
def get_safe_output_path (ex : String → Bool) (dir stem sfx : String) :
    Except FileOpErr String :=
  let basePath := joinPath dir (stem ++ sfx)
  if ex basePath = false then .ok basePath
  else safeLoop ex dir stem sfx 1 10000

/-- Full characterization of the conflict loop from any entry counter:
a returned path is the first free numbered variant at or above the entry
counter (and below 10001), and the loop fails exactly when every counter
up to 10000 is taken. -/
theorem safeLoop_spec (ex : String → Bool) (dir stem sfx : String) :
    ∀ (fuel counter : Nat), counter + fuel = 10001 →
      ((∀ p, safeLoop ex dir stem sfx counter fuel = .ok p →
          ∃ k, counter ≤ k ∧ k ≤ 10000 ∧
            p = joinPath dir (suffixedName stem k sfx) ∧ ex p = false ∧
            ∀ j, counter ≤ j → j < k →
              ex (joinPath dir (suffixedName stem j sfx)) = true) ∧
       (safeLoop ex dir stem sfx counter fuel = .error .tooManyConflicts ↔
          ∀ k, counter ≤ k → k ≤ 10000 →
            ex (joinPath dir (suffixedName stem k sfx)) = true))
  | 0, counter, hcf => by
    constructor
    · intro p hp
      exact absurd hp (by simp [safeLoop])
    · refine iff_of_true rfl ?_
      intro k hk1 hk2
      omega
  | fuel + 1, counter, hcf => by
    have hrec := safeLoop_spec ex dir stem sfx fuel (counter + 1) (by omega)
    by_cases hex : ex (joinPath dir (suffixedName stem counter sfx)) = false
    · constructor
      · intro p hp
        simp only [safeLoop, hex, if_pos] at hp
        have hpe := Except.ok.inj hp
        refine ⟨counter, Nat.le_refl _, by omega, hpe.symm, ?_, ?_⟩
        · rw [← hpe]
          exact hex
        · intro j hj1 hj2
          omega
      · refine iff_of_false ?_ ?_
        · simp [safeLoop, hex]
        · intro hall
          have := hall counter (Nat.le_refl _) (by omega)
          rw [hex] at this
          exact Bool.noConfusion this
    · have hex' : ex (joinPath dir (suffixedName stem counter sfx)) = true := by
        revert hex
        cases ex (joinPath dir (suffixedName stem counter sfx)) <;> simp
      by_cases hc : counter + 1 > 10000
      · constructor
        · intro p hp
          simp [safeLoop, hex', hc] at hp
        · refine iff_of_true ?_ ?_
          · simp [safeLoop, hex', hc]
          · intro k hk1 hk2
            have hk : k = counter := by omega
            rw [hk]
            exact hex'
      · have hstep : safeLoop ex dir stem sfx counter (fuel + 1) =
            safeLoop ex dir stem sfx (counter + 1) fuel := by
          simp [safeLoop, hex', hc]
        constructor
        · intro p hp
          rw [hstep] at hp
          obtain ⟨k, hk1, hk2, hk3, hk4, hk5⟩ := hrec.1 p hp
          refine ⟨k, by omega, hk2, hk3, hk4, ?_⟩
          intro j hj1 hj2
          by_cases hj : j = counter
          · rw [hj]
            exact hex'
          · exact hk5 j (by omega) hj2
        · rw [hstep, hrec.2]
          constructor
          · intro hall k hk1 hk2
            by_cases hj : k = counter
            · rw [hj]
              exact hex'
            · exact hall k (by omega) hk2
          · intro hall k hk1 hk2
            exact hall k (by omega) hk2

/-- A path returned by `get_safe_output_path` never points at an existing
file. -/
theorem get_safe_output_path_fresh (ex : String → Bool) (dir stem sfx : String) :
    ∀ p, get_safe_output_path ex dir stem sfx = .ok p → ex p = false := by
  intro p hp
  unfold get_safe_output_path at hp
  by_cases hbase : ex (joinPath dir (stem ++ sfx)) = false
  · simp only [hbase, if_pos] at hp
    rw [← Except.ok.inj hp]
    exact hbase
  · simp only [hbase] at hp
    rw [if_neg (by simp [hbase])] at hp
    obtain ⟨k, -, -, -, hfree, -⟩ :=
      (safeLoop_spec ex dir stem sfx 10000 1 (by omega)).1 p hp
    exact hfree

end QRare

namespace QRare

/-- Claim C10: the decoder's output path logic never overwrites: when the
target name is free it is used as is; when it exists, the returned path is
the numbered variant with the smallest counter whose path does not exist
(counters start at 1); and the function fails with a file-operation error
exactly when the base name and all ten thousand numbered variants exist. -/
theorem claim_C10 (ex : String → Bool) (dir stem sfx : String) :
    (∀ p, get_safe_output_path ex dir stem sfx = .ok p → ex p = false) ∧
    (ex (joinPath dir (stem ++ sfx)) = false →
      get_safe_output_path ex dir stem sfx = .ok (joinPath dir (stem ++ sfx))) ∧
    (∀ p, get_safe_output_path ex dir stem sfx = .ok p →
      p = joinPath dir (stem ++ sfx) ∨
      ∃ k, 1 ≤ k ∧ k ≤ 10000 ∧
        p = joinPath dir (suffixedName stem k sfx) ∧
        ex (joinPath dir (stem ++ sfx)) = true ∧
        ∀ j, 1 ≤ j → j < k →
          ex (joinPath dir (suffixedName stem j sfx)) = true) ∧
    (get_safe_output_path ex dir stem sfx = .error .tooManyConflicts ↔
      ex (joinPath dir (stem ++ sfx)) = true ∧
      ∀ k, 1 ≤ k → k ≤ 10000 →
        ex (joinPath dir (suffixedName stem k sfx)) = true) := by
  have hspec := safeLoop_spec ex dir stem sfx 10000 1 (by omega)
  refine ⟨get_safe_output_path_fresh ex dir stem sfx, ?_, ?_, ?_⟩
  · intro hbase
    simp [get_safe_output_path, hbase]
  · intro p hp
    by_cases hbase : ex (joinPath dir (stem ++ sfx)) = false
    · left
      unfold get_safe_output_path at hp
      simp only [hbase, if_pos] at hp
      exact (Except.ok.inj hp).symm
    · right
      have hbase' : ex (joinPath dir (stem ++ sfx)) = true := by
        revert hbase
        cases ex (joinPath dir (stem ++ sfx)) <;> simp
      unfold get_safe_output_path at hp
      rw [if_neg (by simp [hbase'])] at hp
      obtain ⟨k, hk1, hk2, hk3, hk4, hk5⟩ := hspec.1 p hp
      exact ⟨k, hk1, hk2, hk3, hbase', hk5⟩
  · by_cases hbase : ex (joinPath dir (stem ++ sfx)) = false
    · refine iff_of_false ?_ ?_
      · simp [get_safe_output_path, hbase]
      · rintro ⟨hb, -⟩
        rw [hbase] at hb
        exact Bool.noConfusion hb
    · have hbase' : ex (joinPath dir (stem ++ sfx)) = true := by
        revert hbase
        cases ex (joinPath dir (stem ++ sfx)) <;> simp
      unfold get_safe_output_path
      rw [if_neg (by simp [hbase'])]
      rw [hspec.2]
      constructor
      · intro hall
        exact ⟨hbase', hall⟩
      · rintro ⟨-, hall⟩
        exact hall

/-- Witness for `claim_C10`: with only `o/f.txt` present, decode writes to
the fresh path `o/f_1.txt`. -/
theorem claim_C10_witness :
    get_safe_output_path (fun p => p == "o/f.txt") "o" "f" ".txt" =
      .ok "o/f_1.txt" ∧
    (fun p => p == "o/f.txt") "o/f_1.txt" = false :=
  ⟨by rfl,
    (claim_C10 (fun p => p == "o/f.txt") "o" "f" ".txt").1 "o/f_1.txt" (by rfl)⟩

end QRare

namespace QRare

/-- `Path.exists` over the association-list filesystem. -/
def fsExists (fs : List (String × List Nat)) (p : String) : Bool :=
  fs.any fun kv => kv.1 == p

/-- `FileManager.write_file`: `open(path, 'wb')` replaces the contents at
`path`; prepending shadows any earlier entry. -/
def fsWrite (fs : List (String × List Nat)) (p : String) (content : List Nat) :
    List (String × List Nat) :=
  (p, content) :: fs

/-- Reading a path back from the filesystem. -/
def fsRead (fs : List (String × List Nat)) (p : String) : Option (List Nat) :=
  (fs.find? fun kv => kv.1 == p).map fun kv => kv.2

/-- Modelled from pathlib (external to the repository): `Path.stem` and
`Path.suffix` split the final name at its last dot, unless that dot is the
first or the last character of the name. -/
def splitExt (name : String) : String × String :=
  let cs := name.data
  match cs.reverse.findIdx? (fun c => c == '.') with
  | none => (name, "")
  | some j =>
    let i := cs.length - 1 - j
    if 0 < i ∧ i < cs.length - 1 then (⟨cs.take i⟩, ⟨cs.drop i⟩)
    else (name, "")

/-- `QRDecoder._save_reconstructed_file`: compute a conflict-free output
path for `metadata['filename']` and write the reconstructed bytes there. -/
def save_reconstructed_file (fs : List (String × List Nat))
    (fileData : List Nat) (md : FileMetadata) (outputDir : String) :
    Except DecodeErr (String × List (String × List Nat)) :=
  match get_safe_output_path (fsExists fs) outputDir
      (splitExt md.filename).1 (splitExt md.filename).2 with
  | .error _ => .error .fileOp
  | .ok p => .ok (p, fsWrite fs p fileData)

/-- `QRDecoder._verify_file_integrity`: re-hash the saved file and compare
with the expected hash carried in the chunk metadata; raise
`IntegrityError` on mismatch. -/
def verify_file_integrity (hashFn : List Nat → String)
    (fs : List (String × List Nat)) (p : String) (md : FileMetadata) :
    Except DecodeErr Unit :=
  match fsRead fs p with
  | none => .error .fileOp
  | some content =>
    if hashFn content ≠ md.file_hash then
      .error (.integrity md.file_hash (hashFn content))
    else .ok ()

/-- `QRDecoder.decode_qr_images` after QR scanning: validate and organize
the chunks, reconstruct and decompress, save the file, then verify its
integrity.  Every failure propagates immediately, leaving the filesystem
as it stood at that point — the write performed by
`_save_reconstructed_file` is not rolled back when
`_verify_file_integrity` raises. -/
def decode_qr_images (hashFn : List Nat → String)
    (decompress : List Nat → Option (List Nat)) (cs : List ChunkData)
    (outputDir : String) (fs : List (String × List Nat)) :
    Except DecodeErr String × List (String × List Nat) :=
  match validate_and_organize_chunks cs with
  | .error e => (.error (.chunk e), fs)
  | .ok org =>
    match reconstruct_file_data decompress org with
    | .error e => (.error e, fs)
    | .ok fileData =>
      match save_reconstructed_file fs fileData org.metadata outputDir with
      | .error e => (.error e, fs)
      | .ok (p, fs2) =>
        match verify_file_integrity hashFn fs2 p org.metadata with
        | .error e => (.error e, fs2)
        | .ok _ => (.ok p, fs2)

/-- Reading back a freshly written path returns the written bytes. -/
theorem fsRead_fsWrite (fs : List (String × List Nat)) (p : String)
    (d : List Nat) : fsRead (fsWrite fs p d) p = some d := by
  simp [fsRead, fsWrite]

end QRare

namespace QRare

/-- The chunk of a one-chunk logical file whose carried hash deadbeef does
not match any digest `wHash` can produce. -/
def cBad : ChunkData :=
  { data := [5], chunk_index := 0, total_chunks := 1
    filename := "f", file_hash := "deadbeef" }

unseal List.merge List.mergeSort in
/-- Claim C4, counterexample: decoding the single-chunk set `[cBad]` into
an empty filesystem fails with the integrity error, yet the reconstructed
file is still on disk at `out/f` when the call returns — the claim that no
output file remains is false. -/
theorem claim_C4_counterexample :
    (decode_qr_images wHash some [cBad] "out" []).1 =
      .error (.integrity "deadbeef" "1") ∧
    fsExists (decode_qr_images wHash some [cBad] "out" []).2 "out/f" = true := by
  constructor <;> rfl

/-- Claim C4 (amended): when the integrity hash of the reconstructed bytes
does not match the expected hash carried in the chunks, strict decode
fails with exactly the integrity error naming expected and actual hash —
but the output file written just before verification remains in the
filesystem; nothing deletes or flags it before returning. -/
theorem claim_C4 (hashFn : List Nat → String)
    (decompress : List Nat → Option (List Nat)) (cs : List ChunkData)
    (outputDir : String) (fs : List (String × List Nat))
    (org : OrganizedChunks) (fileData : List Nat) (p : String)
    (fs2 : List (String × List Nat))
    (hv : validate_and_organize_chunks cs = .ok org)
    (hr : reconstruct_file_data decompress org = .ok fileData)
    (hsave : save_reconstructed_file fs fileData org.metadata outputDir =
      .ok (p, fs2))
    (hh : hashFn fileData ≠ org.metadata.file_hash) :
    decode_qr_images hashFn decompress cs outputDir fs =
      (.error (.integrity org.metadata.file_hash (hashFn fileData)), fs2) ∧
    fsRead fs2 p = some fileData ∧
    fsExists fs p = false := by
  have hfs2 : fs2 = fsWrite fs p fileData ∧ fsExists fs p = false := by
    unfold save_reconstructed_file at hsave
    cases hg : get_safe_output_path (fsExists fs) outputDir
        (splitExt org.metadata.filename).1 (splitExt org.metadata.filename).2 with
    | error e =>
      rw [hg] at hsave
      exact Except.noConfusion hsave
    | ok q =>
      rw [hg] at hsave
      obtain ⟨hq1, hq2⟩ := Prod.mk.inj (Except.ok.inj hsave)
      subst hq1
      refine ⟨hq2.symm, ?_⟩
      exact get_safe_output_path_fresh (fsExists fs) outputDir
        (splitExt org.metadata.filename).1 (splitExt org.metadata.filename).2
        q hg
  obtain ⟨hfw, hfresh⟩ := hfs2
  have hread : fsRead fs2 p = some fileData := by
    rw [hfw]
    exact fsRead_fsWrite fs p fileData
  have hver : verify_file_integrity hashFn fs2 p org.metadata =
      .error (.integrity org.metadata.file_hash (hashFn fileData)) := by
    unfold verify_file_integrity
    rw [hread]
    simp only
    rw [if_pos hh]
  refine ⟨?_, hread, hfresh⟩
  unfold decode_qr_images
  rw [hv]
  simp only
  rw [hr]
  simp only
  rw [hsave]
  simp only
  rw [hver]

unseal List.merge List.mergeSort in
/-- Witness for `claim_C4` on the concrete decode of `[cBad]`. -/
theorem claim_C4_witness :
    decode_qr_images wHash some [cBad] "out" [] =
      (.error (.integrity "deadbeef" "1"), [("out/f", [5])]) ∧
    fsRead [("out/f", [5])] "out/f" = some [5] ∧
    fsExists [] "out/f" = false :=
  claim_C4 wHash some [cBad] "out" []
    { chunks := [cBad]
      metadata := { filename := "f", file_hash := "deadbeef", total_chunks := 1 } }
    [5] "out/f" [("out/f", [5])] (by rfl) (by rfl) (by rfl) (by decide)

end QRare

namespace QRare

/-! ## Analysis mode (`decoder.py`, `analyze_qr_images`) -/

/-- One value of the `chunk_info` dictionary built by `analyze_qr_images`:
`total_chunks` and `file_hash` from the first chunk seen for the file,
the `found_chunks` accumulator, and the `is_complete` flag added by the
final completeness pass (absent — modelled `false` — until that pass). -/
structure FileChunkInfo where
  total_chunks : Nat
  found_chunks : List Nat
  file_hash : String
  is_complete : Bool
deriving DecidableEq, Repr

/-- The analysis record returned by `analyze_qr_images`.  `unique_files`
is a Python `set` turned into a list; it is modelled in first-seen order
(the set's iteration order is unspecified and no claim depends on it).
`chunk_info` is the dict, in insertion order. -/
structure AnalysisResult where
  total_images : Nat
  readable_qrs : Nat
  failed_qrs : Nat
  unique_files : List String
  chunk_info : List (String × FileChunkInfo)
deriving DecidableEq, Repr

/-- The `chunk_info` dict update of the analysis loop: create the entry
with an empty `found_chunks` when the file name is new, then append the
chunk index to the entry's `found_chunks`. -/
def addChunkInfo : List (String × FileChunkInfo) → ChunkData →
    List (String × FileChunkInfo)
  | [], c =>
    [(c.filename,
      { total_chunks := c.total_chunks, found_chunks := [c.chunk_index]
        file_hash := c.file_hash, is_complete := false })]
  | (k, info) :: rest, c =>
    if k == c.filename then
      (k, { info with found_chunks := info.found_chunks ++ [c.chunk_index] })
        :: rest
    else
      (k, info) :: addChunkInfo rest c

/-- One iteration of the `for image_path in image_paths` loop of
`analyze_qr_images`: a readable chunk record bumps `readable_qrs`, records
the file name и updates `chunk_info`; an unreadable or malformed image —
the caught-exception and falsy branches — only bumps `failed_qrs`. -/
def analyzeStep (acc : AnalysisResult) : Option ChunkData → AnalysisResult
  | some c =>
    { acc with
      readable_qrs := acc.readable_qrs + 1
      unique_files :=
        if acc.unique_files.contains c.filename then acc.unique_files
        else acc.unique_files ++ [c.filename]
      chunk_info := addChunkInfo acc.chunk_info c }
  | none => { acc with failed_qrs := acc.failed_qrs + 1 }

/-- The `chunk_info` part of one analysis iteration. -/
def addScan (ci : List (String × FileChunkInfo)) :
    Option ChunkData → List (String × FileChunkInfo)
  | some c => addChunkInfo ci c
  | none => ci

/-- The boolean order `sorted` / `sort()` use on naturals. -/
def natLe (x y : Nat) : Bool := decide (x ≤ y)

/-- `found_chunks.sort()` of the completeness pass. -/
def sortNat (l : List Nat) : List Nat :=
  l.mergeSort natLe

/-- The completeness pass of `analyze_qr_images`: sort `found_chunks` in
place and set `is_complete` to
`len(found) == total and found == list(range(total))`. -/
def finalizeInfo (info : FileChunkInfo) : FileChunkInfo :=
  let sortedFound := sortNat info.found_chunks
  { info with
    found_chunks := sortedFound
    is_complete := decide (sortedFound.length = info.total_chunks ∧
      sortedFound = List.range info.total_chunks) }

/-- `QRDecoder.analyze_qr_images` over the per-image scan results: each
image either yielded a parsed chunk record (`some`) or failed to read or
parse (`none`, the per-image exception handler's branch). -/
def analyze_qr_images (scans : List (Option ChunkData)) : AnalysisResult :=
  let base : AnalysisResult :=
    { total_images := scans.length, readable_qrs := 0, failed_qrs := 0
      unique_files := [], chunk_info := [] }
  let a := scans.foldl analyzeStep base
  { a with chunk_info := a.chunk_info.map fun kv => (kv.1, finalizeInfo kv.2) }

/-- The chunk indices carried for file `f` by the readable scans, in scan
order. -/
def fileIndices (f : String) (scans : List (Option ChunkData)) : List Nat :=
  scans.filterMap fun o =>
    match o with
    | some c => if c.filename == f then some c.chunk_index else none
    | none => none

/-- The first readable chunk record carrying file name `f`. -/
def fileFirst (f : String) (scans : List (Option ChunkData)) :
    Option ChunkData :=
  (scans.filterMap fun o =>
    match o with
    | some c => if c.filename == f then some c else none
    | none => none).head?

end QRare

namespace QRare

/-- The analysis fold touches `chunk_info` only through `addScan`. -/
theorem foldl_chunk_info :
    ∀ (scans : List (Option ChunkData)) (acc : AnalysisResult),
      (scans.foldl analyzeStep acc).chunk_info =
        scans.foldl addScan acc.chunk_info := by
  intro scans
  induction scans with
  | nil => intro acc; rfl
  | cons o rest ih =>
    intro acc
    rw [List.foldl_cons, List.foldl_cons, ih]
    congr 1
    cases o <;> rfl

/-- The fold counts readable scans. -/
theorem foldl_readable :
    ∀ (scans : List (Option ChunkData)) (acc : AnalysisResult),
      (scans.foldl analyzeStep acc).readable_qrs =
        acc.readable_qrs + scans.countP (fun o => o.isSome) := by
  intro scans
  induction scans with
  | nil => intro acc; simp
  | cons o rest ih =>
    intro acc
    rw [List.foldl_cons, ih, List.countP_cons]
    cases o
    all_goals simp [analyzeStep]
    all_goals omega

/-- The fold counts failed scans. -/
theorem foldl_failed :
    ∀ (scans : List (Option ChunkData)) (acc : AnalysisResult),
      (scans.foldl analyzeStep acc).failed_qrs =
        acc.failed_qrs + scans.countP (fun o => o.isNone) := by
  intro scans
  induction scans with
  | nil => intro acc; simp
  | cons o rest ih =>
    intro acc
    rw [List.foldl_cons, ih, List.countP_cons]
    cases o
    all_goals simp [analyzeStep]
    all_goals omega

/-- The fold never touches `total_images`. -/
theorem foldl_total_images :
    ∀ (scans : List (Option ChunkData)) (acc : AnalysisResult),
      (scans.foldl analyzeStep acc).total_images = acc.total_images := by
  intro scans
  induction scans with
  | nil => intro acc; rfl
  | cons o rest ih =>
    intro acc
    rw [List.foldl_cons, ih]
    cases o <;> rfl

/-- How a dict update moves through a lookup: updating file `c.filename`
changes only that key's entry, appending the chunk index (or creating the
entry when absent). -/
theorem find?_addChunkInfo (ci : List (String × FileChunkInfo))
    (c : ChunkData) (f : String) :
    (addChunkInfo ci c).find? (fun kv => kv.1 == f) =
      if c.filename == f then
        match ci.find? (fun kv => kv.1 == f) with
        | some kv => some (kv.1,
            { kv.2 with found_chunks := kv.2.found_chunks ++ [c.chunk_index] })
        | none => some (c.filename,
            { total_chunks := c.total_chunks
              found_chunks := [c.chunk_index]
              file_hash := c.file_hash, is_complete := false })
      else ci.find? (fun kv => kv.1 == f) := by
  induction ci with
  | nil =>
    by_cases h : c.filename == f
    · rw [if_pos h]
      simp [addChunkInfo, List.find?_cons_of_pos, h]
    · rw [if_neg h]
      simp only [addChunkInfo, List.find?_nil]
      rw [List.find?_cons_of_neg _ (by simpa using h), List.find?_nil]
  | cons kv rest ih =>
    obtain ⟨k, info⟩ := kv
    by_cases hk : k == c.filename
    · have hkeq : k = c.filename := by simpa using hk
      simp only [addChunkInfo, if_pos hk]
      by_cases hcf : c.filename == f
      · have hcfeq : c.filename = f := by simpa using hcf
        rw [if_pos hcf]
        rw [List.find?_cons_of_pos _ (by simp [hkeq, hcfeq]),
          List.find?_cons_of_pos _ (by simp [hkeq, hcfeq])]
      · have hcfne : ¬c.filename = f := by simpa using hcf
        rw [if_neg hcf]
        rw [List.find?_cons_of_neg _ (by simp [hkeq, hcfne]),
          List.find?_cons_of_neg _ (by simp [hkeq, hcfne])]
    · have hkne : ¬k = c.filename := by simpa using hk
      simp only [addChunkInfo, if_neg hk]
      by_cases hkf : k == f
      · have hkfeq : k = f := by simpa using hkf
        by_cases hcf : c.filename == f
        · have hcfeq : c.filename = f := by simpa using hcf
          exact absurd (hkfeq.trans hcfeq.symm) hkne
        · rw [if_neg hcf]
          rw [List.find?_cons_of_pos _ (by simp [hkfeq]),
            List.find?_cons_of_pos _ (by simp [hkfeq])]
      · have hkfne : ¬k = f := by simpa using hkf
        rw [List.find?_cons_of_neg _ (by simp [hkfne]),
          List.find?_cons_of_neg _ (by simp [hkfne]), ih]

/-- Running the `chunk_info` fold from any starting dict: the entry for
`f` accumulates exactly the indices of `f`'s chunks in scan order, with
`total_chunks` and `file_hash` taken from the first `f`-chunk when the
entry is created by the fold. -/
theorem ciFold_find (scans : List (Option ChunkData)) :
    ∀ (acc : List (String × FileChunkInfo)) (f : String),
      (scans.foldl addScan acc).find? (fun kv => kv.1 == f) =
        match acc.find? (fun kv => kv.1 == f) with
        | some kv => some (kv.1,
            { kv.2 with
              found_chunks := kv.2.found_chunks ++ fileIndices f scans })
        | none =>
          (fileFirst f scans).map fun c0 =>
            (f, { total_chunks := c0.total_chunks
                  found_chunks := fileIndices f scans
                  file_hash := c0.file_hash, is_complete := false }) := by
  induction scans with
  | nil =>
    intro acc f
    simp only [List.foldl_nil]
    cases hacc : acc.find? (fun kv => kv.1 == f) with
    | none => simp [fileFirst, fileIndices]
    | some kv => simp [fileIndices]
  | cons o rest ih =>
    intro acc f
    cases o with
    | none =>
      rw [List.foldl_cons]
      show (rest.foldl addScan acc).find? (fun kv => kv.1 == f) = _
      rw [ih acc f]
      have h1 : fileIndices f (none :: rest) = fileIndices f rest := by
        simp [fileIndices]
      have h2 : fileFirst f (none :: rest) = fileFirst f rest := by
        simp [fileFirst]
      rw [h1, h2]
    | some c =>
      rw [List.foldl_cons]
      show (rest.foldl addScan (addChunkInfo acc c)).find?
          (fun kv => kv.1 == f) = _
      rw [ih (addChunkInfo acc c) f, find?_addChunkInfo]
      by_cases hcf : c.filename == f
      · have hcfeq : c.filename = f := by simpa using hcf
        have h1 : fileIndices f (some c :: rest) =
            c.chunk_index :: fileIndices f rest := by
          simp [fileIndices, List.filterMap_cons, hcfeq]
        have h2 : fileFirst f (some c :: rest) = some c := by
          simp [fileFirst, List.filterMap_cons, hcfeq]
        rw [if_pos hcf, h1, h2]
        cases hacc : acc.find? (fun kv => kv.1 == f) with
        | none =>
          simp [hcfeq]
        | some kv =>
          simp [List.append_assoc]
      · have hcfne : ¬c.filename = f := by simpa using hcf
        have h1 : fileIndices f (some c :: rest) = fileIndices f rest := by
          simp [fileIndices, List.filterMap_cons, hcfne]
        have h2 : fileFirst f (some c :: rest) = fileFirst f rest := by
          simp [fileFirst, List.filterMap_cons, hcfne]
        rw [if_neg hcf, h1, h2]

/-- Lookup commutes with the completeness pass. -/
theorem find?_map_finalize (ci : List (String × FileChunkInfo)) (f : String) :
    (ci.map fun kv => (kv.1, finalizeInfo kv.2)).find? (fun kv => kv.1 == f) =
      (ci.find? (fun kv => kv.1 == f)).map fun kv => (kv.1, finalizeInfo kv.2) := by
  induction ci with
  | nil => rfl
  | cons kv rest ih =>
    rw [List.map_cons, List.find?_cons, List.find?_cons]
    cases h : kv.1 == f
    · simp only [h, ih]
    · simp only [h]
      rfl

/-- `natLe` is transitive. -/
theorem natLe_trans : ∀ (a b c : Nat), natLe a b → natLe b c → natLe a c := by
  intro a b c h1 h2
  simp only [natLe, decide_eq_true_eq] at h1 h2 ⊢
  omega

/-- `natLe` is total. -/
theorem natLe_total : ∀ (a b : Nat), natLe a b || natLe b a := by
  intro a b
  simp only [natLe, Bool.or_eq_true, decide_eq_true_eq]
  omega

/-- `sort()` really sorts. -/
theorem sortNat_sorted (l : List Nat) : (sortNat l).Pairwise (· ≤ ·) := by
  have h := List.sorted_mergeSort natLe_trans natLe_total l
  exact h.imp fun hd => by simpa [natLe] using hd

/-- `sort()` permutes. -/
theorem sortNat_perm (l : List Nat) : (sortNat l).Perm l :=
  List.mergeSort_perm l _

end QRare

namespace QRare

/-- Chunk 0 of 2 of file f, used to exhibit duplicate handling in
analysis mode. -/
def dupScan : ChunkData :=
  { data := [1], chunk_index := 0, total_chunks := 2
    filename := "f", file_hash := "h" }

unseal List.merge List.mergeSort in
/-- Claim C5, counterexample: analysing two scans that both carry chunk 0
of file f reports `found_chunks = [0, 0]` — sorted, but not deduplicated
as the claim states. -/
theorem claim_C5_counterexample :
    ((analyze_qr_images [some dupScan, some dupScan]).chunk_info.find?
        (fun kv => kv.1 == "f")).map (fun kv => kv.2.found_chunks) =
      some [0, 0] ∧
    ¬ List.Nodup [0, 0] := by
  constructor
  · rfl
  · decide

/-- Claim C5 (amended): analysis mode never raises — it is a total
function of the per-image scan results, counting unreadable or malformed
members in `failed_qrs` — and reports, per file name, the expected total
and hash taken from the first readable chunk of that file, the found
indices sorted (but not deduplicated: the index multiset is preserved),
and the completeness boolean
`len(found) == total and found == range(total)`. -/
theorem claim_C5 (scans : List (Option ChunkData)) (f : String) :
    (analyze_qr_images scans).total_images = scans.length ∧
    (analyze_qr_images scans).readable_qrs =
      scans.countP (fun o => o.isSome) ∧
    (analyze_qr_images scans).failed_qrs =
      scans.countP (fun o => o.isNone) ∧
    (fileFirst f scans = none →
      (analyze_qr_images scans).chunk_info.find? (fun kv => kv.1 == f) =
        none) ∧
    (∀ c0, fileFirst f scans = some c0 →
      (analyze_qr_images scans).chunk_info.find? (fun kv => kv.1 == f) =
        some (f,
          { total_chunks := c0.total_chunks
            found_chunks := sortNat (fileIndices f scans)
            file_hash := c0.file_hash
            is_complete := decide
              ((sortNat (fileIndices f scans)).length = c0.total_chunks ∧
               sortNat (fileIndices f scans) =
                 List.range c0.total_chunks) }) ∧
      (sortNat (fileIndices f scans)).Pairwise (· ≤ ·) ∧
      (sortNat (fileIndices f scans)).Perm (fileIndices f scans)) := by
  have hci : (analyze_qr_images scans).chunk_info.find? (fun kv => kv.1 == f) =
      ((scans.foldl addScan []).find? (fun kv => kv.1 == f)).map
        (fun kv => (kv.1, finalizeInfo kv.2)) := by
    simp only [analyze_qr_images]
    rw [find?_map_finalize, foldl_chunk_info]
  have hfold := ciFold_find scans [] f
  rw [List.find?_nil] at hfold
  refine ⟨?_, ?_, ?_, ?_, ?_⟩
  · simp only [analyze_qr_images]
    rw [foldl_total_images]
  · simp only [analyze_qr_images]
    rw [foldl_readable]
    simp
  · simp only [analyze_qr_images]
    rw [foldl_failed]
    simp
  · intro hnone
    rw [hci, hfold, hnone]
    rfl
  · intro c0 hsome
    refine ⟨?_, sortNat_sorted _, sortNat_perm _⟩
    rw [hci, hfold, hsome]
    rfl

/-- Witness for `claim_C5`: one readable chunk of f plus one unreadable
scan. -/
theorem claim_C5_witness :
    (analyze_qr_images [some dupScan, none]).chunk_info.find?
        (fun kv => kv.1 == "f") =
      some ("f",
        { total_chunks := 2
          found_chunks := sortNat (fileIndices "f" [some dupScan, none])
          file_hash := "h"
          is_complete := decide
            ((sortNat (fileIndices "f" [some dupScan, none])).length = 2 ∧
             sortNat (fileIndices "f" [some dupScan, none]) =
               List.range 2) }) :=
  ((claim_C5 [some dupScan, none] "f").2.2.2.2 dupScan rfl).1

end QRare
